import Mathlib

/-!
Verification of the probability-distribution sampling engine of the
optics design workbench (the `distributions` module: scalar and vector
random variables, numerical tabulation, inverse-CDF sampling and the
deterministic "fan" grid generator).

The sampling engine itself is not part of the packaged sources here (only
its tests and callers are), so the definitions below are modelled from the
specification of the engine (spec sections 3, 4.1-4.5, 6 and 7): densities
are tabulated on a finite grid, cumulated by the trapezoidal rule,
normalized, and inverted by monotone piecewise-linear interpolation.
All arithmetic is carried out over `ℚ`, making every definition
executable and every identity exact.
-/

namespace OpticsDesign

/-! ### Piecewise-linear interpolation core

Modelled from the spec: the Numerical Tabulator (spec 4.3) builds an
inverse CDF "via monotonic interpolation against the normalized cumulative
sequence".  `interpOn A B j t` linearly interpolates the table
`(A j, B j), (A (j+1), B (j+1))` at abscissa `t`; `segIdx` locates the
segment of a monotone abscissa table that brackets `t`; `pwInterp`
combines the two into the piecewise-linear interpolant. -/

/-- Linear interpolation of the ordinate table `B` against the abscissa
table `A` on segment `j`, evaluated at `t`. -/
def interpOn (A B : ℕ → ℚ) (j : ℕ) (t : ℚ) : ℚ :=
  B j + (t - A j) * (B (j+1) - B j) / (A (j+1) - A j)

/-- Index of the interpolation segment of the abscissa table `A` (with `n`
segments) that brackets `t`: the greatest `j ≤ n-1` with `A j < t`. -/
def segIdx (A : ℕ → ℚ) (n : ℕ) (t : ℚ) : ℕ :=
  Nat.findGreatest (fun j => A j < t) (n - 1)

/-- Piecewise-linear interpolant of the table `(A, B)` with `n` segments,
evaluated at abscissa `t`. -/
def pwInterp (A B : ℕ → ℚ) (n : ℕ) (t : ℚ) : ℚ :=
  interpOn A B (segIdx A n t) t

/-- The abscissa table is strictly increasing across each of its `n`
segments. -/
def SegMono (A : ℕ → ℚ) (n : ℕ) : Prop :=
  ∀ j, j < n → A j < A (j+1)

theorem SegMono.lt {A : ℕ → ℚ} {n : ℕ} (h : SegMono A n)
    {i j : ℕ} (hij : i < j) (hj : j ≤ n) : A i < A j := by
  induction j with
  | zero => omega
  | succ m ih =>
    rcases Nat.lt_succ_iff_lt_or_eq.mp hij with h' | h'
    · exact lt_trans (ih h' (by omega)) (h m (by omega))
    · subst h'; exact h i (by omega)

theorem SegMono.le {A : ℕ → ℚ} {n : ℕ} (h : SegMono A n)
    {i j : ℕ} (hij : i ≤ j) (hj : j ≤ n) : A i ≤ A j := by
  rcases Nat.lt_or_ge i j with h' | h'
  · exact le_of_lt (h.lt h' hj)
  · have : i = j := le_antisymm hij h'
    simp [this]

/-- The segment located by `segIdx` really brackets `t` whenever
`A 0 < t ≤ A n`. -/
theorem segIdx_bracket {A : ℕ → ℚ} {n : ℕ} {t : ℚ}
    (_hmono : SegMono A n) (hn : 0 < n) (h0 : A 0 < t) (hT : t ≤ A n) :
    segIdx A n t < n ∧ A (segIdx A n t) < t ∧ t ≤ A (segIdx A n t + 1) := by
  have hle : Nat.findGreatest (fun j => A j < t) (n - 1) ≤ n - 1 :=
    Nat.findGreatest_le (n - 1)
  simp only [segIdx]
  refine ⟨by omega,
    Nat.findGreatest_spec (P := fun j => A j < t) (Nat.zero_le _) h0, ?_⟩
  rcases Nat.lt_or_ge (Nat.findGreatest (fun j => A j < t) (n - 1)) (n - 1)
    with hcase | hcase
  · exact le_of_not_lt (Nat.findGreatest_is_greatest
      (P := fun j => A j < t) (n := n - 1)
      (k := Nat.findGreatest (fun j => A j < t) (n - 1) + 1)
      (by omega) (by omega))
  · have heq : Nat.findGreatest (fun j => A j < t) (n - 1) + 1 = n := by omega
    rw [heq]; exact hT

/-- Well-definedness of piecewise-linear interpolation: any segment that
brackets `t` yields the same interpolated value (at a shared boundary both
neighbouring segments produce the node value). -/
theorem pwInterp_eq_interpOn {A B : ℕ → ℚ} {n : ℕ} {t : ℚ} {j : ℕ}
    (hmono : SegMono A n) (hn : 0 < n) (h0 : A 0 < t)
    (hj : j < n) (h1 : A j ≤ t) (h2 : t ≤ A (j+1)) :
    pwInterp A B n t = interpOn A B j t := by
  have hT : t ≤ A n := le_trans h2 (hmono.le (by omega) (le_refl n))
  obtain ⟨hin, hl, hr⟩ := segIdx_bracket hmono hn h0 hT
  set i := segIdx A n t with hi
  rcases Nat.lt_trichotomy i j with hij | hij | hij
  · -- then t = A (i+1) = A j, j = i+1, and both formulas give B (i+1)
    have hs : A (i+1) ≤ A j := hmono.le (by omega) (by omega)
    have ht1 : t = A (i+1) := le_antisymm hr (le_trans hs h1)
    have ht2 : t = A j := le_antisymm (le_trans hr hs) h1
    have hji : j = i + 1 := by
      by_contra hne
      have hlt2 : A (i+1) < A j := hmono.lt (by omega) (by omega)
      rw [← ht1, ← ht2] at hlt2
      exact lt_irrefl t hlt2
    have hd : A (i+1) - A i ≠ 0 :=
      sub_ne_zero.mpr (ne_of_gt (hmono i (by omega)))
    rw [pwInterp, ← hi]
    rw [interpOn, interpOn, hji, ht1]
    rw [sub_self, zero_mul, zero_div, add_zero]
    field_simp
  · rw [pwInterp, ← hi, hij]
  · exfalso
    have hs : A (j+1) ≤ A i := hmono.le (by omega) (by omega)
    have : t ≤ A i := le_trans h2 hs
    exact absurd hl (not_lt.mpr this)

/-- Reflection symmetry of piecewise-linear interpolation: when the
abscissa table reflects as `A (n-j) = p - A j` and the ordinate table as
`B (n-j) = q - B j`, the interpolant satisfies
`pwInterp (p - t) = q - pwInterp t` for every `t` strictly inside the
table. -/
theorem pwInterp_reflect {A B : ℕ → ℚ} {n : ℕ} {p q t : ℚ}
    (hmono : SegMono A n) (hn : 0 < n)
    (hA : ∀ j, j ≤ n → A (n - j) = p - A j)
    (hB : ∀ j, j ≤ n → B (n - j) = q - B j)
    (h0 : A 0 < t) (hT : t < A n) :
    pwInterp A B n (p - t) = q - pwInterp A B n t := by
  obtain ⟨hin, hl, hr⟩ := segIdx_bracket hmono hn h0 (le_of_lt hT)
  set i := segIdx A n t with hi
  have hAn : A 0 = p - A n := by
    have h := hA n (le_refl n)
    rwa [Nat.sub_self] at h
  have hj1 : n - (i + 1) = n - 1 - i := by omega
  have hj2 : n - i = (n - 1 - i) + 1 := by omega
  have hA1 : A (n - 1 - i) = p - A (i + 1) := by
    have h := hA (i + 1) (by omega); rwa [hj1] at h
  have hA2 : A ((n - 1 - i) + 1) = p - A i := by
    have h := hA i (by omega); rwa [hj2] at h
  have hB1 : B (n - 1 - i) = q - B (i + 1) := by
    have h := hB (i + 1) (by omega); rwa [hj1] at h
  have hB2 : B ((n - 1 - i) + 1) = q - B i := by
    have h := hB i (by omega); rwa [hj2] at h
  have hd : A (i + 1) - A i ≠ 0 :=
    sub_ne_zero.mpr (ne_of_gt (hmono i hin))
  have hL : pwInterp A B n (p - t) = interpOn A B (n - 1 - i) (p - t) := by
    refine pwInterp_eq_interpOn hmono hn ?_ (by omega) ?_ ?_
    · rw [hAn]; linarith
    · rw [hA1]; linarith
    · rw [hA2]; linarith
  have hR : pwInterp A B n t = interpOn A B i t := by
    rw [pwInterp, ← hi]
  rw [hL, hR, interpOn, interpOn, hA1, hA2, hB1, hB2]
  have e1 : (p - A i) - (p - A (i + 1)) = A (i + 1) - A i := by ring
  have e2 : (p - t) - (p - A (i + 1)) = A (i + 1) - t := by ring
  rw [e1, e2]
  field_simp
  ring

/-! ### Deterministic grid placement ("fan" mode)

Modelled from the spec (section 4.4, `findGrid`): `N` points placed
without randomness at cumulative probabilities `(k + 1/2) / N`,
transformed through the compiled inverse CDF. -/

/-- The grid produced by mapping the centered cumulative probabilities
`(k + 1/2) / N`, `k = 0, ..., N-1`, through an inverse-CDF transform. -/
def gridOf (g : ℚ → ℚ) (N : ℕ) : List ℚ :=
  (List.range N).map (fun (k : ℕ) => g ((2 * (k : ℚ) + 1) / (2 * N)))

theorem gridOf_length (g : ℚ → ℚ) (N : ℕ) : (gridOf g N).length = N := by
  rw [gridOf, List.length_map, List.length_range]

theorem gridOf_getD (g : ℚ → ℚ) {N k : ℕ} (hk : k < N) :
    (gridOf g N).getD k 0 = g ((2 * k + 1) / (2 * N)) := by
  rw [gridOf, List.getD_eq_getElem?_getD, List.getElem?_map,
    List.getElem?_range hk]
  rfl

/-- The centered cumulative probability of point `k` lies strictly inside
the unit interval. -/
theorem gridU_mem {N k : ℕ} (hk : k < N) :
    0 < (2 * (k : ℚ) + 1) / (2 * N) ∧ (2 * (k : ℚ) + 1) / (2 * N) < 1 := by
  have hN : (0 : ℚ) < N := by
    have : 0 < N := by omega
    exact_mod_cast this
  have hkN : (k : ℚ) + 1 ≤ N := by exact_mod_cast hk
  constructor
  · apply div_pos (by positivity) (by linarith)
  · rw [div_lt_one (by linarith)]
    linarith

/-- The centered cumulative probabilities of points `k` and `N-1-k` are
complementary. -/
theorem gridU_compl {N k : ℕ} (hk : k < N) :
    (2 * ((N - 1 - k : ℕ) : ℚ) + 1) / (2 * N) =
      1 - (2 * (k : ℚ) + 1) / (2 * N) := by
  have hN : (0 : ℚ) < N := by
    have : 0 < N := by omega
    exact_mod_cast this
  have h1 : 1 + k ≤ N := by omega
  have hc : ((N - 1 - k : ℕ) : ℚ) = (N : ℚ) - 1 - k := by
    rw [Nat.sub_sub, Nat.cast_sub h1]
    push_cast
    ring
  rw [hc]
  field_simp
  ring

/-- For odd `N` the middle point has centered cumulative probability
exactly one half. -/
theorem gridU_mid {N : ℕ} (hodd : N % 2 = 1) :
    (2 * ((N / 2 : ℕ) : ℚ) + 1) / (2 * N) = 1 / 2 := by
  obtain ⟨m, rfl⟩ : ∃ m, N = 2 * m + 1 := ⟨N / 2, by omega⟩
  have hk : (2 * m + 1) / 2 = m := by omega
  rw [hk]
  have hm : (0 : ℚ) < 2 * ((2 * m + 1 : ℕ) : ℚ) := by
    push_cast
    positivity
  rw [div_eq_div_iff (ne_of_gt hm) (by norm_num)]
  push_cast
  ring

/-- Any grid built from a reflection-antisymmetric inverse transform is
itself antisymmetric: entry `k` is the negative of entry `N-1-k`. -/
theorem gridOf_pair {g : ℚ → ℚ}
    (hrefl : ∀ u, 0 < u → u < 1 → g (1 - u) = - g u)
    {N k : ℕ} (hk : k < N) :
    (gridOf g N).getD k 0 + (gridOf g N).getD (N - 1 - k) 0 = 0 := by
  have hk' : N - 1 - k < N := by omega
  rw [gridOf_getD g hk, gridOf_getD g hk']
  obtain ⟨hu0, hu1⟩ := gridU_mem hk
  rw [gridU_compl hk, hrefl _ hu0 hu1]
  ring

/-- Any grid built from a reflection-antisymmetric inverse transform has
an exact zero middle point when the point count is odd. -/
theorem gridOf_mid {g : ℚ → ℚ}
    (hrefl : ∀ u, 0 < u → u < 1 → g (1 - u) = - g u)
    {N : ℕ} (hodd : N % 2 = 1) :
    (gridOf g N).getD (N / 2) 0 = 0 := by
  have hk : N / 2 < N := by omega
  rw [gridOf_getD g hk, gridU_mid hodd]
  have h := hrefl (1 / 2) (by norm_num) (by norm_num)
  have h12 : (1 : ℚ) - 1 / 2 = 1 / 2 := by norm_num
  rw [h12] at h
  linarith

/-! ### Numerical Tabulator

Modelled from the spec (section 4.3): the tabulator evaluates the density
at the nodes `X 0 < X 1 < ... < X n`, clips negative values to zero,
integrates cumulatively by the trapezoidal rule, normalizes so the final
cumulative value is 1, and builds the inverse CDF by monotone
piecewise-linear interpolation against the normalized cumulative
sequence. -/

/-- A tabulated density: `n` segments, node abscissas `X` and raw density
values `Y` (values beyond index `n` are irrelevant). -/
structure NumericSampler where
  n : ℕ
  X : ℕ → ℚ
  Y : ℕ → ℚ

namespace NumericSampler

/-- Density values with negatives clipped to zero (spec 4.3). -/
def Yc (s : NumericSampler) (j : ℕ) : ℚ := max (s.Y j) 0

/-- Cumulative trapezoidal integral of the clipped density values. -/
def cum (s : NumericSampler) : ℕ → ℚ
  | 0 => 0
  | j + 1 => cum s j + (s.X (j+1) - s.X j) * (s.Yc j + s.Yc (j+1)) / 2

/-- Normalization constant: the total integral over the domain. -/
def Z (s : NumericSampler) : ℚ := s.cum s.n

/-- Normalized cumulative table (the CDF values at the nodes). -/
def F (s : NumericSampler) (j : ℕ) : ℚ := s.cum j / s.Z

/-- The inverse CDF, by piecewise-linear interpolation of the nodes
against the normalized cumulative sequence. -/
def invCDF (s : NumericSampler) (u : ℚ) : ℚ := pwInterp s.F s.X s.n u

/-- The CDF, by piecewise-linear interpolation of the normalized
cumulative sequence against the nodes. -/
def cdfAt (s : NumericSampler) (x : ℚ) : ℚ := pwInterp s.X s.F s.n x

/-- Deterministic density-weighted grid ("fan" mode, spec 4.4): `N`
points equally spaced in cumulative-probability space, point `k` at
cumulative probability `(k + 1/2) / N`. -/
def findGrid (s : NumericSampler) (N : ℕ) : List ℚ :=
  gridOf s.invCDF N

/-- A well-formed table: at least one segment, strictly increasing nodes,
and clipped density not identically zero on any segment (so the cumulative
table is strictly increasing and the density nowhere degenerate). -/
def Valid (s : NumericSampler) : Prop :=
  0 < s.n ∧ (∀ j, j < s.n → s.X j < s.X (j+1)) ∧
    (∀ j, j < s.n → 0 < s.Yc j + s.Yc (j+1))

/-- Domain and density symmetric about the domain center 0: nodes reflect
to their negatives and density values match under reflection. -/
def Sym (s : NumericSampler) : Prop :=
  (∀ j, j ≤ s.n → s.X (s.n - j) = - s.X j) ∧
    (∀ j, j ≤ s.n → s.Y (s.n - j) = s.Y j)

theorem cum_mono {s : NumericSampler} (hv : s.Valid) : SegMono s.cum s.n := by
  intro j hj
  have hX := hv.2.1 j hj
  have hY := hv.2.2 j hj
  have : 0 < (s.X (j+1) - s.X j) * (s.Yc j + s.Yc (j+1)) / 2 := by
    apply div_pos (mul_pos (by linarith) hY) (by norm_num)
  rw [cum]
  linarith

theorem Z_pos {s : NumericSampler} (hv : s.Valid) : 0 < s.Z := by
  have h := (cum_mono hv).lt hv.1 (le_refl s.n)
  rw [Z]
  calc (0 : ℚ) = s.cum 0 := by rw [cum]
  _ < s.cum s.n := h

theorem F_zero (s : NumericSampler) : s.F 0 = 0 := by
  rw [F, cum, zero_div]

theorem F_last {s : NumericSampler} (hv : s.Valid) : s.F s.n = 1 := by
  rw [F, Z, div_self (ne_of_gt (by rw [← Z]; exact Z_pos hv))]

theorem F_mono {s : NumericSampler} (hv : s.Valid) : SegMono s.F s.n := by
  intro j hj
  exact (div_lt_div_iff_of_pos_right (Z_pos hv)).mpr (cum_mono hv j hj)

theorem Yc_sym {s : NumericSampler} (hs : s.Sym) {j : ℕ} (hj : j ≤ s.n) :
    s.Yc (s.n - j) = s.Yc j := by
  rw [Yc, Yc, hs.2 j hj]

/-- Under reflection symmetry of the table, the cumulative integral from
the right end mirrors the one from the left end. -/
theorem cum_reflect {s : NumericSampler} (hs : s.Sym) :
    ∀ j, j ≤ s.n → s.cum s.n - s.cum (s.n - j) = s.cum j := by
  intro j
  induction j with
  | zero => intro _; rw [Nat.sub_zero]; rw [cum]; ring
  | succ j ih =>
    intro hj
    have hj' : j ≤ s.n := by omega
    have e1 : s.n - j = (s.n - (j+1)) + 1 := by omega
    have e2 : (s.n - (j+1)) + 1 = s.n - j := by omega
    have hXr : s.X ((s.n - (j+1)) + 1) = - s.X j := by
      rw [e2]; exact hs.1 j hj'
    have hXl : s.X (s.n - (j+1)) = - s.X (j+1) := hs.1 (j+1) hj
    have hYr : s.Yc ((s.n - (j+1)) + 1) = s.Yc j := by
      rw [e2]; exact Yc_sym hs hj'
    have hYl : s.Yc (s.n - (j+1)) = s.Yc (j+1) := Yc_sym hs hj
    have hsum := ih hj'
    rw [e1] at hsum
    rw [cum] at hsum ⊢
    rw [hXr, hXl, hYr, hYl] at hsum
    linarith

theorem F_reflect {s : NumericSampler} (hv : s.Valid) (hs : s.Sym) :
    ∀ j, j ≤ s.n → s.F (s.n - j) = 1 - s.F j := by
  intro j hj
  have hZ := Z_pos hv
  have h := cum_reflect hs j hj
  have hcz : s.cum s.n = s.Z := rfl
  rw [F, F]
  rw [show s.cum (s.n - j) = s.cum s.n - s.cum j by linarith]
  rw [hcz, sub_div, div_self (ne_of_gt hZ)]

/-- Symmetric domain and density give a reflection-antisymmetric inverse
CDF: `invCDF (1 - u) = - invCDF u` for `u` strictly inside `(0, 1)`. -/
theorem invCDF_reflect {s : NumericSampler} (hv : s.Valid) (hs : s.Sym)
    {u : ℚ} (h0 : 0 < u) (h1 : u < 1) :
    s.invCDF (1 - u) = - s.invCDF u := by
  have hB : ∀ j, j ≤ s.n → s.X (s.n - j) = 0 - s.X j := by
    intro j hj; rw [hs.1 j hj]; ring
  have h := pwInterp_reflect (p := 1) (q := 0)
    (F_mono hv) hv.1 (F_reflect hv hs) hB
    (by rw [F_zero]; exact h0) (by rw [F_last hv]; exact h1)
  rw [invCDF, invCDF, h]
  ring

/-- The interpolated CDF is a left inverse of the interpolated inverse
CDF: a point generated at cumulative probability `u` really sits at
cumulative probability `u`. -/
theorem cdfAt_invCDF {s : NumericSampler} (hv : s.Valid)
    {u : ℚ} (h0 : 0 < u) (h1 : u < 1) :
    s.cdfAt (s.invCDF u) = u := by
  have hFm := F_mono hv
  have hXm : SegMono s.X s.n := hv.2.1
  obtain ⟨hin, hl, hr⟩ := segIdx_bracket hFm hv.1
    (by rw [F_zero]; exact h0) (by rw [F_last hv]; exact le_of_lt h1)
  set i := segIdx s.F s.n u with hi
  have hinv : s.invCDF u = interpOn s.F s.X i u := by
    rw [invCDF, pwInterp, ← hi]
  have hdFpos : 0 < s.F (i+1) - s.F i := sub_pos.mpr (hFm i hin)
  have hdXpos : 0 < s.X (i+1) - s.X i := sub_pos.mpr (hXm i hin)
  have hgl : s.X i < s.invCDF u := by
    rw [hinv, interpOn]
    have hpos : 0 < (u - s.F i) * (s.X (i+1) - s.X i) / (s.F (i+1) - s.F i) :=
      div_pos (mul_pos (sub_pos.mpr hl) hdXpos) hdFpos
    linarith
  have hgr : s.invCDF u ≤ s.X (i+1) := by
    rw [hinv, interpOn]
    have hstep : (u - s.F i) * (s.X (i+1) - s.X i) / (s.F (i+1) - s.F i)
        ≤ s.X (i+1) - s.X i := by
      rw [div_le_iff₀ hdFpos]
      nlinarith [sub_nonneg.mpr (le_of_lt hl)]
    linarith
  have hX0 : s.X 0 ≤ s.X i := hXm.le (Nat.zero_le i) (by omega)
  have hcd : s.cdfAt (s.invCDF u) = interpOn s.X s.F i (s.invCDF u) :=
    pwInterp_eq_interpOn hXm hv.1 (lt_of_le_of_lt hX0 hgl) hin
      (le_of_lt hgl) hgr
  rw [hcd, hinv, interpOn, interpOn]
  field_simp
  ring

end NumericSampler

/-! ### Compiled sampler

Modelled from the spec (sections 3 and 9): the result of `compile` is a
tagged variant, either a closed-form inverse CDF obtained by the
Analytical Inverter (spec 4.2) or the interpolation table built by the
Numerical Tabulator (spec 4.3). -/

/-- The per-variable compiled sampling transform. -/
inductive CompiledFn where
  | analytical (inv : ℚ → ℚ)
  | numeric (tab : NumericSampler)

namespace CompiledFn

/-- The inverse-CDF transform of a compiled sampler: the closed form in
analytical mode, the interpolated inverse in numeric mode. -/
def invCDF : CompiledFn → ℚ → ℚ
  | analytical f, u => f u
  | numeric t, u => t.invCDF u

/-- `findGrid` for a compiled sampler: `N` deterministic points at the
centered cumulative probabilities `(k + 1/2) / N` (spec 4.4). -/
def findGrid (c : CompiledFn) (N : ℕ) : List ℚ :=
  gridOf c.invCDF N

/-- Well-formedness of a compiled sampler (trivial for a closed-form
inverse, table validity for the numeric branch). -/
def Valid : CompiledFn → Prop
  | analytical _ => True
  | numeric t => t.Valid

/-- The compiled sampler arose from a density and domain symmetric about
the domain center 0.  For the numeric branch this is symmetry of the
stored table; for a closed-form inverse it is the reflection
antisymmetry `inv (1-u) = - inv u` that the exact inverse CDF of any
center-symmetric density satisfies. -/
def SymAboutCenter : CompiledFn → Prop
  | analytical f => ∀ u, 0 < u → u < 1 → f (1 - u) = - f u
  | numeric t => t.Sym

theorem invCDF_reflect_fn {c : CompiledFn} (hv : c.Valid)
    (hs : c.SymAboutCenter) {u : ℚ} (h0 : 0 < u) (h1 : u < 1) :
    c.invCDF (1 - u) = - c.invCDF u := by
  cases c with
  | analytical f => exact hs u h0 h1
  | numeric t => exact NumericSampler.invCDF_reflect hv hs h0 h1

end CompiledFn

/-! ### Compilation state machine and sampling surface

Modelled from the spec (sections 4.4, 6 and 7): `compile` binds
parameters and selects the strategy; `mode`, `draw`, `drawPseudo` and
`findGrid` form the sampling surface and fail with `UncompiledError`
before `compile`.  True randomness is modelled by passing the stream of
uniform draws as an explicit input. -/

/-- Which branch compilation took (spec 4.4: `mode()`). -/
inductive Mode where
  | analytical
  | numeric
deriving DecidableEq

/-- The fatal error conditions of the sampling surface that the claims
exercise (spec 7). -/
inductive SamplingError where
  | uncompiled
  | degenerateDensity
deriving DecidableEq

/-- Modelled from the spec: a single-variable density specification after
parameter binding (spec 3): a bounded domain `[lo, hi]`, the bound
density as a function of the variable, and the tabulation resolution used
by the Numerical Tabulator. -/
structure DensitySpec where
  lo : ℚ
  hi : ℚ
  density : ℚ → ℚ
  resolution : ℕ

namespace DensitySpec

/-- Node `j` of the evenly spaced tabulation grid (spec 4.3). -/
def node (d : DensitySpec) (j : ℕ) : ℚ :=
  d.lo + j * (d.hi - d.lo) / d.resolution

/-- The tabulated density: raw density values at the tabulation nodes;
clipping happens inside the table (spec 4.3). -/
def tabulate (d : DensitySpec) : NumericSampler :=
  ⟨d.resolution, d.node, fun j => d.density (d.node j)⟩

/-- The recorded NegativeDensityWarning condition (spec 4.3 and 7): true
when the density evaluates negative at some tabulation node. -/
def negAtNode (d : DensitySpec) : Bool :=
  (List.range (d.resolution + 1)).any
    (fun j => decide (d.density (d.node j) < 0))

end DensitySpec

/-- The immutable result of a successful `compile` (spec 3,
CompiledSampler): which branch was taken, the compiled transform, and the
recorded warning surface. -/
structure Compiled where
  mode : Mode
  fn : CompiledFn
  negativeDensityWarning : Bool

/-- Numeric-mode compilation (spec 4.3): tabulate the density, record the
negative-density condition, and fail with `DegenerateDensityError` when
the clipped density integrates to zero. -/
def numericCompile (d : DensitySpec) : Except SamplingError Compiled :=
  if d.tabulate.Z ≤ 0 then Except.error SamplingError.degenerateDensity
  else Except.ok ⟨Mode.numeric, CompiledFn.numeric d.tabulate, d.negAtNode⟩

/-- One-shot compile (spec 4.4): when `disableAnalytical` is set the
analytical attempt is skipped entirely and tabulation runs directly;
otherwise the pluggable analytical inverter (spec 9: `tryInvertCDF`) is
consulted first, numeric tabulation being the routine fallback. -/
def compile (d : DensitySpec) (tryInvertCDF : Option (ℚ → ℚ))
    (disableAnalytical : Bool) : Except SamplingError Compiled :=
  if disableAnalytical then numericCompile d
  else
    match tryInvertCDF with
    | some f => Except.ok ⟨Mode.analytical, CompiledFn.analytical f, false⟩
    | none => numericCompile d

/-- Sample-count coercion: python `int(N)` applied to a possibly
non-integer requested count (tests pass `N=1e5` as a float); on the
nonnegative counts that occur, truncation agrees with the floor. -/
def pyInt (q : ℚ) : ℕ := (Int.floor q).toNat

theorem pyInt_natCast (N : ℕ) : pyInt (N : ℚ) = N := by
  rw [pyInt, Int.floor_natCast, Int.toNat_natCast]

/-- Modelled from the spec: a scalar random variable (spec 4.4): density
specification, pluggable analytical-inversion oracle, and compilation
state (`none` before `compile` was ever called). -/
structure ScalarRandomVariable where
  spec : DensitySpec
  tryInvertCDF : Option (ℚ → ℚ)
  compiled : Option Compiled

namespace ScalarRandomVariable

/-- `compile` on the variable: the prior compiled state is discarded and
replaced wholesale (spec 3, ownership of CompiledSampler). -/
def compileWith (v : ScalarRandomVariable) (disableAnalytical : Bool) :
    Except SamplingError ScalarRandomVariable :=
  (compile v.spec v.tryInvertCDF disableAnalytical).map
    (fun c => { v with compiled := some c })

/-- `mode()` (spec 4.4): which branch compilation took; fails before
`compile`. -/
def mode (v : ScalarRandomVariable) : Except SamplingError Mode :=
  match v.compiled with
  | none => Except.error SamplingError.uncompiled
  | some c => Except.ok c.mode

/-- `draw(N)` (spec 4.4): `int(N)` uniform draws mapped through the
compiled inverse-CDF transform; `UncompiledError` before `compile`. -/
def draw (v : ScalarRandomVariable) (N : ℚ) (us : ℕ → ℚ) :
    Except SamplingError (List ℚ) :=
  match v.compiled with
  | none => Except.error SamplingError.uncompiled
  | some c =>
    Except.ok ((List.range (pyInt N)).map
      (fun (k : ℕ) => c.fn.invCDF (us k)))

/-- `drawPseudo(N, bins)` (spec 4.4): partitions `(0,1)` into `bins`
equal-probability strata (default `N` when unspecified), places one
uniform draw inside each stratum in round-robin order, and applies the
same inverse transform as `draw`. -/
def drawPseudo (v : ScalarRandomVariable) (N : ℚ) (bins : Option ℕ)
    (us : ℕ → ℚ) : Except SamplingError (List ℚ) :=
  match v.compiled with
  | none => Except.error SamplingError.uncompiled
  | some c =>
    let B := bins.getD (pyInt N)
    Except.ok ((List.range (pyInt N)).map
      (fun (k : ℕ) => c.fn.invCDF ((((k % B : ℕ) : ℚ) + us k) / (B : ℚ))))

/-- `findGrid(N)` on the variable; `UncompiledError` before `compile`. -/
def findGridE (v : ScalarRandomVariable) (N : ℕ) :
    Except SamplingError (List ℚ) :=
  match v.compiled with
  | none => Except.error SamplingError.uncompiled
  | some c => Except.ok (c.fn.findGrid N)

end ScalarRandomVariable

/-! ### Vector sampler

Modelled from the spec (sections 4.5 and 9): a compiled vector sampler is
an explicit ordered sequence of per-variable transforms, each taking the
tuple of previously drawn values of this call as context together with a
fresh uniform draw. -/

/-- The compiled vector sampler: one conditional transform per variable,
in declared order. -/
structure VectorCompiled where
  transforms : List (List ℚ → ℚ → ℚ)

/-- Sequential conditional draw (spec 4.5): each transform receives the
values already drawn in this call as its context. -/
def condDraw : List (List ℚ → ℚ → ℚ) → List ℚ → (ℕ → ℚ) → List ℚ
  | [], ctx, _ => ctx
  | t :: ts, ctx, us => condDraw ts (ctx ++ [t ctx (us ctx.length)]) us

theorem condDraw_length (ts : List (List ℚ → ℚ → ℚ)) (ctx : List ℚ)
    (us : ℕ → ℚ) : (condDraw ts ctx us).length = ctx.length + ts.length := by
  induction ts generalizing ctx with
  | nil => rw [condDraw]; rfl
  | cons t ts ih =>
    rw [condDraw, ih]
    simp
    omega

namespace VectorCompiled

/-- One joint sample: a tuple of values, one per variable in declared
order. -/
def drawOne (c : VectorCompiled) (us : ℕ → ℚ) : List ℚ :=
  condDraw c.transforms [] us

/-- `draw(N)` for the vector sampler (spec 4.5 and 6): `int(N)` joint
samples, returned as one array per variable in declared order. -/
def draw (c : VectorCompiled) (N : ℚ) (us : ℕ → ℕ → ℚ) : List (List ℚ) :=
  (List.range c.transforms.length).map
    (fun (v : ℕ) => (List.range (pyInt N)).map
      (fun (i : ℕ) => (c.drawOne (us i)).getD v 0))

/-- `drawPseudo(N)` for the vector sampler: stratified uniforms through
the same sequential conditional transforms. -/
def drawPseudo (c : VectorCompiled) (N : ℚ) (us : ℕ → ℕ → ℚ) :
    List (List ℚ) :=
  c.draw N
    (fun i k => (((i % pyInt N : ℕ) : ℚ) + us i k) / (pyInt N : ℚ))

end VectorCompiled

/-! ### Concrete instances used by the witnesses -/

/-- A small symmetric tabulated density: two segments on `[-1, 1]`,
constant density 1. -/
def symTab : NumericSampler := ⟨2, fun j => (j : ℚ) - 1, fun _ => 1⟩

/-- The compiled sampler holding `symTab`. -/
def symCompiled : CompiledFn := CompiledFn.numeric symTab

theorem symTab_valid : symTab.Valid := by
  refine ⟨by decide, ?_, ?_⟩
  · intro j _
    show (j : ℚ) - 1 < (j + 1 : ℕ) - 1
    push_cast
    linarith
  · intro j _
    show 0 < max 1 0 + max 1 0
    norm_num

theorem symTab_sym : symTab.Sym := by
  constructor
  · intro j hj
    show ((2 - j : ℕ) : ℚ) - 1 = -((j : ℚ) - 1)
    rw [Nat.cast_sub (by simpa [symTab] using hj)]
    push_cast
    ring
  · intro j _
    rfl

/-! ### The claims -/

/-- Claim C1: for every compiled sampler whose density and domain are
symmetric about the domain center, the grid returned by `findGrid N`
satisfies `grid[i] == -grid[N-1-i]` within absolute tolerance `1e-9`
for every index `i`, and when `N` is odd the middle point satisfies
`|grid[N/2]| < 1e-9`.  (Over exact rationals the identities hold
exactly, so the stated tolerance bounds follow.) -/
theorem claim_C1 (c : CompiledFn) (hv : c.Valid) (hs : c.SymAboutCenter)
    (N i : ℕ) (hi : i < N) :
    |(c.findGrid N).getD i 0 + (c.findGrid N).getD (N - 1 - i) 0|
        < 1 / 1000000000 ∧
      (N % 2 = 1 →
        |(c.findGrid N).getD (N / 2) 0| < 1 / 1000000000) := by
  have hrefl : ∀ u, 0 < u → u < 1 → c.invCDF (1 - u) = - c.invCDF u :=
    fun u h0 h1 => CompiledFn.invCDF_reflect_fn hv hs h0 h1
  constructor
  · rw [CompiledFn.findGrid, gridOf_pair hrefl hi]
    norm_num
  · intro hodd
    rw [CompiledFn.findGrid, gridOf_mid hrefl hodd]
    norm_num

theorem claim_C1_witness :
    |(symCompiled.findGrid 3).getD 0 0 + (symCompiled.findGrid 3).getD 2 0|
        < 1 / 1000000000 ∧
      (3 % 2 = 1 →
        |(symCompiled.findGrid 3).getD 1 0| < 1 / 1000000000) :=
  claim_C1 symCompiled symTab_valid symTab_sym 3 0 (by norm_num)

/-- The model's effective density on segment `j`: the trapezoid average
of the clipped node values, which is the local density value at any
interior point of the segment — in particular at the midpoint of two
consecutive generated points lying in the segment. -/
def NumericSampler.localDensity (s : NumericSampler) (j : ℕ) : ℚ :=
  (s.Yc j + s.Yc (j+1)) / 2

/-- Claim C2: for every compiled 1-D sampler and every `N`, the `N`
points of `findGrid N` are equally spaced in cumulative-probability
space: the `k`-th point sits at cumulative probability `(k + 1/2) / N`;
equivalently, two consecutive points lying in one table segment have
spacing inversely proportional to the local density there
(`spacing * density = Z / N`, the same for every `k`). -/
theorem claim_C2 (s : NumericSampler) (hv : s.Valid) (N k : ℕ)
    (hk : k < N) :
    s.cdfAt ((s.findGrid N).getD k 0) = ((k : ℚ) + 1/2) / N ∧
      (∀ j, j < s.n → k + 1 < N →
        s.F j ≤ (2 * (k : ℚ) + 1) / (2 * N) →
        (2 * (k : ℚ) + 3) / (2 * N) ≤ s.F (j+1) →
        ((s.findGrid N).getD (k+1) 0 - (s.findGrid N).getD k 0)
            * s.localDensity j = s.Z / N) := by
  have hN : 0 < N := by omega
  have hNQ : (0 : ℚ) < N := by exact_mod_cast hN
  constructor
  · rw [NumericSampler.findGrid, gridOf_getD _ hk]
    obtain ⟨h0, h1⟩ := gridU_mem hk
    rw [NumericSampler.cdfAt_invCDF hv h0 h1]
    field_simp
    ring
  · intro j hj hk1 hl hr
    have hFm := NumericSampler.F_mono hv
    have hcast : (2 * ((k + 1 : ℕ) : ℚ) + 1) / (2 * N)
        = (2 * (k : ℚ) + 3) / (2 * N) := by
      push_cast
      ring
    have huu : (2 * (k : ℚ) + 1) / (2 * N) < (2 * (k : ℚ) + 3) / (2 * N) := by
      rw [div_lt_div_iff_of_pos_right (by linarith)]
      linarith
    obtain ⟨hu0, hu1⟩ := gridU_mem hk
    obtain ⟨hu0', hu1'⟩ := gridU_mem hk1
    rw [hcast] at hu0' hu1'
    have hF0 : s.F 0 < (2 * (k : ℚ) + 1) / (2 * N) := by
      rw [NumericSampler.F_zero]; exact hu0
    have hF0' : s.F 0 < (2 * (k : ℚ) + 3) / (2 * N) := by
      rw [NumericSampler.F_zero]; exact hu0'
    have hg : (s.findGrid N).getD k 0
        = interpOn s.F s.X j ((2 * (k : ℚ) + 1) / (2 * N)) := by
      rw [NumericSampler.findGrid, gridOf_getD _ hk, NumericSampler.invCDF]
      exact pwInterp_eq_interpOn hFm hv.1 hF0 hj hl (le_trans (le_of_lt huu) hr)
    have hg' : (s.findGrid N).getD (k+1) 0
        = interpOn s.F s.X j ((2 * (k : ℚ) + 3) / (2 * N)) := by
      rw [NumericSampler.findGrid, gridOf_getD _ hk1, NumericSampler.invCDF,
        hcast]
      exact pwInterp_eq_interpOn hFm hv.1 hF0' hj
        (le_trans hl (le_of_lt huu)) hr
    have hcum : s.cum (j+1)
        = s.cum j + (s.X (j+1) - s.X j) * (s.Yc j + s.Yc (j+1)) / 2 := by
      rw [NumericSampler.cum]
    have hZQ : (0 : ℚ) < s.Z := NumericSampler.Z_pos hv
    have hdF : s.F (j+1) - s.F j
        = (s.X (j+1) - s.X j) * (s.Yc j + s.Yc (j+1)) / (2 * s.Z) := by
      rw [NumericSampler.F, NumericSampler.F, hcum]
      field_simp
      ring
    have hDX : (0 : ℚ) < s.X (j+1) - s.X j := sub_pos.mpr (hv.2.1 j hj)
    have hYs : (0 : ℚ) < s.Yc j + s.Yc (j+1) := hv.2.2 j hj
    rw [hg, hg', interpOn, interpOn, NumericSampler.localDensity, hdF]
    field_simp
    ring

theorem symTab_Yc (j : ℕ) : symTab.Yc j = 1 :=
  max_eq_left (by show (0 : ℚ) ≤ 1; norm_num)

theorem symTab_cum1 : symTab.cum 1 = 1 := by
  show symTab.cum (0 + 1) = 1
  rw [NumericSampler.cum, symTab_Yc 0, symTab_Yc 1]
  show 0 + (symTab.X 1 - symTab.X 0) * (1 + 1) / 2 = 1
  norm_num [symTab]

theorem symTab_F1 : symTab.F 1 = 1 / 2 := by
  have hc2 : symTab.cum 2 = 2 := by
    show symTab.cum (1 + 1) = 2
    rw [NumericSampler.cum, symTab_cum1, symTab_Yc 1, symTab_Yc 2]
    norm_num [symTab]
  have hZ : symTab.Z = 2 := hc2
  rw [NumericSampler.F, symTab_cum1, hZ]

theorem claim_C2_witness :
    symTab.cdfAt ((symTab.findGrid 4).getD 0 0)
        = (((0 : ℕ) : ℚ) + 1/2) / ((4 : ℕ) : ℚ) ∧
      ((symTab.findGrid 4).getD (0+1) 0 - (symTab.findGrid 4).getD 0 0)
          * symTab.localDensity 0 = symTab.Z / ((4 : ℕ) : ℚ) :=
  ⟨(claim_C2 symTab symTab_valid 4 0 (by norm_num)).1,
    (claim_C2 symTab symTab_valid 4 0 (by norm_num)).2 0 (by decide)
      (by norm_num)
      (by rw [NumericSampler.F_zero]; positivity)
      (by rw [show (0 + 1 : ℕ) = 1 from rfl, symTab_F1]; norm_num)⟩

/-- Claim C3: for every compiled sampler and every requested count `N`,
`findGrid N` returns a sequence of exactly `N` points. -/
theorem claim_C3 (c : CompiledFn) (N : ℕ) : (c.findGrid N).length = N := by
  rw [CompiledFn.findGrid, gridOf_length]

/-! ### Helpers for the state-machine claims -/

theorem numericCompile_mode {d : DensitySpec} {c : Compiled}
    (h : numericCompile d = Except.ok c) : c.mode = Mode.numeric := by
  by_cases hz : d.tabulate.Z ≤ 0
  · rw [numericCompile, if_pos hz] at h
    exact absurd h (by simp)
  · rw [numericCompile, if_neg hz] at h
    cases h
    rfl

theorem draw_ok {v : ScalarRandomVariable} {c : Compiled}
    (hc : v.compiled = some c) (N : ℚ) (us : ℕ → ℚ) :
    v.draw N us = Except.ok ((List.range (pyInt N)).map
      (fun (k : ℕ) => c.fn.invCDF (us k))) := by
  obtain ⟨sp, oi, co⟩ := v
  cases co with
  | none => exact absurd hc (by simp)
  | some c' =>
    obtain rfl : c' = c := by simpa using hc
    rfl

theorem drawPseudo_ok {v : ScalarRandomVariable} {c : Compiled}
    (hc : v.compiled = some c) (N : ℚ) (bins : Option ℕ) (us : ℕ → ℚ) :
    v.drawPseudo N bins us = Except.ok ((List.range (pyInt N)).map
      (fun (k : ℕ) => c.fn.invCDF
        ((((k % bins.getD (pyInt N) : ℕ) : ℚ) + us k)
          / ((bins.getD (pyInt N) : ℕ) : ℚ)))) := by
  obtain ⟨sp, oi, co⟩ := v
  cases co with
  | none => exact absurd hc (by simp)
  | some c' =>
    obtain rfl : c' = c := by simpa using hc
    rfl

/-! ### More concrete instances used by the witnesses -/

/-- A trivial bound density specification: constant density 1 on
`[0, 1]` at resolution 1. -/
def dUnit : DensitySpec := ⟨0, 1, fun _ => 1, 1⟩

/-- A variable with an analytical-inversion oracle, not yet compiled. -/
def oracleVar : ScalarRandomVariable := ⟨dUnit, some (fun u => u), none⟩

/-- A variable on which `compile` was never called. -/
def uncompiledVar : ScalarRandomVariable := ⟨dUnit, none, none⟩

/-- A compiled state carrying the identity closed-form inverse. -/
def idCompiled : Compiled :=
  ⟨Mode.analytical, CompiledFn.analytical (fun u => u), false⟩

/-- A variable in compiled state. -/
def compiledVar : ScalarRandomVariable := ⟨dUnit, none, some idCompiled⟩

/-- A constant stream of uniform draws. -/
def zeroStream : ℕ → ℚ := fun _ => 0

/-- A constant two-index stream of uniform draws. -/
def zeroStream2 : ℕ → ℕ → ℚ := fun _ _ => 0

/-- Claim C5: `compile` with `disableAnalytical = true` skips the
analytical attempt entirely and goes straight to numerical tabulation,
after which `mode()` reports numeric; with `disableAnalytical = false`
the analytical inversion is attempted first (succeeding when the oracle
provides a closed form, with `mode()` reporting analytical) and numeric
tabulation is the fallback. -/
theorem claim_C5 (v : ScalarRandomVariable) :
    compile v.spec v.tryInvertCDF true = numericCompile v.spec ∧
      (∀ v', v.compileWith true = Except.ok v' →
        v'.mode = Except.ok Mode.numeric) ∧
      (∀ f, v.tryInvertCDF = some f →
        ∃ v', v.compileWith false = Except.ok v' ∧
          v'.mode = Except.ok Mode.analytical) ∧
      (v.tryInvertCDF = none →
        compile v.spec v.tryInvertCDF false = numericCompile v.spec) := by
  refine ⟨rfl, ?_, ?_, ?_⟩
  · intro v' hv'
    rw [ScalarRandomVariable.compileWith] at hv'
    have h1 : compile v.spec v.tryInvertCDF true = numericCompile v.spec := rfl
    rw [h1] at hv'
    rcases hE : numericCompile v.spec with e | c
    · rw [hE] at hv'
      exact absurd hv' (by simp [Except.map])
    · rw [hE] at hv'
      have hv'' : ({ v with compiled := some c } : ScalarRandomVariable)
          = v' := by simpa [Except.map] using hv'
      rw [← hv'']
      show Except.ok c.mode = Except.ok Mode.numeric
      rw [numericCompile_mode hE]
  · intro f hf
    have hmk : v.compileWith false = Except.ok { v with compiled := some (Compiled.mk Mode.analytical (CompiledFn.analytical f) false) } := by
      rw [ScalarRandomVariable.compileWith, compile.eq_def, hf]
      rfl
    exact ⟨_, hmk, rfl⟩
  · intro hnone
    rw [compile.eq_def, hnone]
    rfl

theorem claim_C5_witness :
    (∃ v', oracleVar.compileWith false = Except.ok v' ∧
      v'.mode = Except.ok Mode.analytical) ∧
    compile oracleVar.spec oracleVar.tryInvertCDF true
      = numericCompile oracleVar.spec :=
  ⟨(claim_C5 oracleVar).2.2.1 (fun u => u) rfl, (claim_C5 oracleVar).1⟩

/-- Claim C6: a density that evaluates negative somewhere in-domain still
compiles in numeric mode, with the negative values clipped to zero and
the negative-density condition recorded on the compiled result rather
than silently swallowed, and subsequent draws work. -/
theorem claim_C6 (d : DensitySpec)
    (hneg : ∃ j, j ≤ d.resolution ∧ d.density (d.node j) < 0)
    (hZ : 0 < d.tabulate.Z) :
    ∃ c, numericCompile d = Except.ok c ∧
      c.negativeDensityWarning = true ∧
      c.mode = Mode.numeric ∧
      (∀ j, 0 ≤ d.tabulate.Yc j ∧
        (d.density (d.node j) < 0 → d.tabulate.Yc j = 0)) ∧
      (∀ (v : ScalarRandomVariable) (N : ℚ) (us : ℕ → ℚ),
        v.compiled = some c → ∃ xs, v.draw N us = Except.ok xs) := by
  have hz' : ¬ d.tabulate.Z ≤ 0 := not_le.mpr hZ
  refine ⟨⟨Mode.numeric, CompiledFn.numeric d.tabulate, d.negAtNode⟩,
    ?_, ?_, rfl, ?_, ?_⟩
  · rw [numericCompile, if_neg hz']
  · obtain ⟨j, hj, hjneg⟩ := hneg
    show d.negAtNode = true
    rw [DensitySpec.negAtNode, List.any_eq_true]
    exact ⟨j, List.mem_range.mpr (by omega), by simpa using hjneg⟩
  · intro j
    refine ⟨le_max_right _ _, ?_⟩
    intro hlt
    show max (d.density (d.node j)) 0 = 0
    exact max_eq_right (le_of_lt hlt)
  · intro v N us hc
    exact ⟨_, draw_ok hc N us⟩

/-- A density specification that is negative on part of its domain:
`1 - x^2` on `[0, 2]` at resolution 4. -/
def dNeg : DensitySpec := ⟨0, 2, fun x => 1 - x * x, 4⟩

theorem dNeg_node (j : ℕ) : dNeg.node j = (j : ℚ) / 2 := by
  rw [DensitySpec.node]
  show 0 + (j : ℚ) * (2 - 0) / ((4 : ℕ) : ℚ) = (j : ℚ) / 2
  push_cast
  ring

theorem dNeg_Yc0 : dNeg.tabulate.Yc 0 = 1 := by
  rw [NumericSampler.Yc]
  show max (dNeg.density (dNeg.node 0)) 0 = 1
  rw [dNeg_node]
  show max ((1 : ℚ) - 0/2 * (0/2)) 0 = 1
  norm_num

theorem dNeg_Yc1 : dNeg.tabulate.Yc 1 = 3/4 := by
  rw [NumericSampler.Yc]
  show max (dNeg.density (dNeg.node 1)) 0 = 3/4
  rw [dNeg_node]
  show max ((1 : ℚ) - 1/2 * (1/2)) 0 = 3/4
  norm_num

theorem dNeg_dX (j : ℕ) :
    dNeg.tabulate.X (j+1) - dNeg.tabulate.X j = 1/2 := by
  show dNeg.node (j+1) - dNeg.node j = 1/2
  rw [dNeg_node, dNeg_node]
  push_cast
  ring

theorem dNeg_cum1 : dNeg.tabulate.cum 1 = 7/16 := by
  show dNeg.tabulate.cum (0+1) = 7/16
  rw [NumericSampler.cum, dNeg_dX 0]
  show (0 : ℚ) + 1/2 * (dNeg.tabulate.Yc 0 + dNeg.tabulate.Yc 1) / 2 = 7/16
  rw [dNeg_Yc0, dNeg_Yc1]
  norm_num

theorem dNeg_Z_pos : (0 : ℚ) < dNeg.tabulate.Z := by
  have hnn : ∀ j, 0 ≤ dNeg.tabulate.Yc j := fun j => le_max_right _ _
  have hstep : ∀ j : ℕ, dNeg.tabulate.cum j ≤ dNeg.tabulate.cum (j+1) := by
    intro j
    have he : dNeg.tabulate.cum (j+1) = dNeg.tabulate.cum j
        + (dNeg.tabulate.X (j+1) - dNeg.tabulate.X j)
          * (dNeg.tabulate.Yc j + dNeg.tabulate.Yc (j+1)) / 2 := by
      rw [NumericSampler.cum]
    rw [he, dNeg_dX j]
    have h1 := hnn j
    have h2 := hnn (j+1)
    linarith
  have h12 : dNeg.tabulate.cum 1 ≤ dNeg.tabulate.cum 2 := hstep 1
  have h23 : dNeg.tabulate.cum 2 ≤ dNeg.tabulate.cum 3 := hstep 2
  have h34 : dNeg.tabulate.cum 3 ≤ dNeg.tabulate.cum 4 := hstep 3
  have h1 : (0 : ℚ) < dNeg.tabulate.cum 1 := by
    rw [dNeg_cum1]; norm_num
  show (0 : ℚ) < dNeg.tabulate.cum 4
  linarith

theorem claim_C6_witness :
    ∃ c, numericCompile dNeg = Except.ok c ∧
      c.negativeDensityWarning = true ∧
      c.mode = Mode.numeric ∧
      (∀ j, 0 ≤ dNeg.tabulate.Yc j ∧
        (dNeg.density (dNeg.node j) < 0 → dNeg.tabulate.Yc j = 0)) ∧
      (∀ (v : ScalarRandomVariable) (N : ℚ) (us : ℕ → ℚ),
        v.compiled = some c → ∃ xs, v.draw N us = Except.ok xs) :=
  claim_C6 dNeg
    ⟨3, by decide,
      by rw [dNeg_node]; show (1 : ℚ) - 3/2 * (3/2) < 0; norm_num⟩
    dNeg_Z_pos

/-- Claim C7: on a sampler on which `compile` has never been called,
`draw`, `drawPseudo` and `findGrid` all fail with `UncompiledError`, and
`mode()` fails as well. -/
theorem claim_C7 (v : ScalarRandomVariable) (hv : v.compiled = none)
    (N : ℚ) (M : ℕ) (bins : Option ℕ) (us : ℕ → ℚ) :
    v.draw N us = Except.error SamplingError.uncompiled ∧
      v.drawPseudo N bins us = Except.error SamplingError.uncompiled ∧
      v.findGridE M = Except.error SamplingError.uncompiled ∧
      v.mode = Except.error SamplingError.uncompiled := by
  obtain ⟨sp, oi, co⟩ := v
  cases co with
  | none => exact ⟨rfl, rfl, rfl, rfl⟩
  | some c => exact absurd hv (by simp)

theorem claim_C7_witness :
    uncompiledVar.draw 1 zeroStream
        = Except.error SamplingError.uncompiled ∧
      uncompiledVar.drawPseudo 1 none zeroStream
        = Except.error SamplingError.uncompiled ∧
      uncompiledVar.findGridE 1
        = Except.error SamplingError.uncompiled ∧
      uncompiledVar.mode = Except.error SamplingError.uncompiled :=
  claim_C7 uncompiledVar rfl 1 1 none zeroStream

/-- A compiled vector sampler over two variables: the second transform
conditions on the first drawn value. -/
def pairVec : VectorCompiled :=
  ⟨[fun _ u => u, fun ctx u => u + ctx.getD 0 0]⟩

/-- Claim C8: a compiled vector sampler over `k` variables returns, from
`draw N` and `drawPseudo N`, `k` arrays (one per variable in declared
order) of length `int(N)` each — so two variables at `N = 15` give shape
`(2, 15)`; a compiled scalar sampler returns a single array of length
`int(N)`. -/
theorem claim_C8 (c : VectorCompiled) (N : ℚ) (us : ℕ → ℕ → ℚ) :
    (c.draw N us).length = c.transforms.length ∧
      (∀ a, a ∈ c.draw N us → a.length = pyInt N) ∧
      (c.drawPseudo N us).length = c.transforms.length ∧
      (∀ a, a ∈ c.drawPseudo N us → a.length = pyInt N) ∧
      (∀ (v : ScalarRandomVariable) (cs : Compiled) (us' : ℕ → ℚ),
        v.compiled = some cs →
        ∃ xs, v.draw N us' = Except.ok xs ∧ xs.length = pyInt N) := by
  have hlen : (c.draw N us).length = c.transforms.length := by
    rw [VectorCompiled.draw, List.length_map, List.length_range]
  have hmem : ∀ (w : ℕ → ℕ → ℚ) a, a ∈ c.draw N w → a.length = pyInt N := by
    intro w a ha
    rw [VectorCompiled.draw] at ha
    obtain ⟨v', _, rfl⟩ := List.mem_map.mp ha
    rw [List.length_map, List.length_range]
  refine ⟨hlen, hmem us, ?_, ?_, ?_⟩
  · rw [VectorCompiled.drawPseudo, VectorCompiled.draw,
      List.length_map, List.length_range]
  · intro a ha
    rw [VectorCompiled.drawPseudo] at ha
    exact hmem _ a ha
  · intro v cs us' hc
    refine ⟨_, draw_ok hc N us', ?_⟩
    rw [List.length_map, List.length_range]

theorem claim_C8_witness :
    (pairVec.draw 15 zeroStream2).length = 2 ∧
      (∀ a, a ∈ pairVec.draw 15 zeroStream2 → a.length = 15) ∧
      (∃ xs, compiledVar.draw 15 zeroStream = Except.ok xs ∧
        xs.length = 15) := by
  have h := claim_C8 pairVec 15 zeroStream2
  have hp : pyInt (15 : ℚ) = 15 := by
    rw [pyInt, show ((15 : ℚ)) = ((15 : ℕ) : ℚ) by norm_num,
      Int.floor_natCast, Int.toNat_natCast]
  refine ⟨?_, ?_, ?_⟩
  · rw [h.1]
    rfl
  · intro a ha
    rw [h.2.1 a ha, hp]
  · obtain ⟨xs, hxs, hlen⟩ := h.2.2.2.2 compiledVar idCompiled zeroStream rfl
    exact ⟨xs, hxs, by rw [hlen, hp]⟩

/-- Claim C9: for a compiled scalar sampler, `drawPseudo N bins`
partitions `(0,1)` into `bins` equal-probability strata (defaulting to
`N` strata when `bins` is unspecified), draws one uniform sample inside
each stratum, applies the same compiled inverse-CDF transform as `draw`,
and returns exactly `N` values. -/
theorem claim_C9 (v : ScalarRandomVariable) (c : Compiled)
    (hc : v.compiled = some c) (N : ℕ) (bins : Option ℕ) (B : ℕ)
    (hB : bins.getD N = B) (hBpos : 0 < B)
    (us : ℕ → ℚ) (hus : ∀ k, 0 ≤ us k ∧ us k < 1) :
    ∃ xs, v.drawPseudo (N : ℚ) bins us = Except.ok xs ∧
      xs.length = N ∧
      (∀ k, k < N → ∃ u',
        (((k % B : ℕ) : ℚ) / B ≤ u' ∧
          u' < (((k % B : ℕ) : ℚ) + 1) / B) ∧
        xs.getD k 0 = c.fn.invCDF u') := by
  have hp : pyInt ((N : ℕ) : ℚ) = N := pyInt_natCast N
  refine ⟨_, drawPseudo_ok hc (N : ℚ) bins us, ?_, ?_⟩
  · rw [List.length_map, List.length_range, hp]
  · intro k hk
    have hBQ : (0 : ℚ) < B := by exact_mod_cast hBpos
    refine ⟨(((k % B : ℕ) : ℚ) + us k) / B, ⟨?_, ?_⟩, ?_⟩
    · rw [div_le_div_iff_of_pos_right hBQ]
      linarith [(hus k).1]
    · rw [div_lt_div_iff_of_pos_right hBQ]
      linarith [(hus k).2]
    · rw [hp, hB, List.getD_eq_getElem?_getD, List.getElem?_map,
        List.getElem?_range hk]
      rfl

/-- A constant stream of uniform draws sitting at one half. -/
def halfStream : ℕ → ℚ := fun _ => 1/2

theorem claim_C9_witness :
    ∃ xs, compiledVar.drawPseudo ((2 : ℕ) : ℚ) none halfStream
        = Except.ok xs ∧
      xs.length = 2 ∧
      (∀ k, k < 2 → ∃ u',
        (((k % 2 : ℕ) : ℚ) / ((2 : ℕ) : ℚ) ≤ u' ∧
          u' < (((k % 2 : ℕ) : ℚ) + 1) / ((2 : ℕ) : ℚ)) ∧
        xs.getD k 0 = idCompiled.fn.invCDF u') :=
  claim_C9 compiledVar idCompiled rfl 2 none 2 rfl (by norm_num)
    halfStream (fun k => by rw [halfStream]; norm_num)

/-- Claim C10: for a compiled sampler, `draw` accepts a non-integer
requested count `N` (tests pass the float `1e5`) and returns exactly
`int(N)` samples. -/
theorem claim_C10 (v : ScalarRandomVariable) (c : Compiled)
    (hc : v.compiled = some c) (N : ℚ) (us : ℕ → ℚ) :
    ∃ xs, v.draw N us = Except.ok xs ∧
      xs.length = (Int.floor N).toNat := by
  refine ⟨_, draw_ok hc N us, ?_⟩
  rw [List.length_map, List.length_range, pyInt]

theorem claim_C10_witness :
    (∃ xs, compiledVar.draw 100000 zeroStream = Except.ok xs ∧
      xs.length = 100000) ∧
    (∃ xs, compiledVar.draw (5/2) zeroStream = Except.ok xs ∧
      xs.length = 2) := by
  have hf1 : (Int.floor (100000 : ℚ)).toNat = 100000 := by
    norm_num
    decide
  have hf2 : (Int.floor (5/2 : ℚ)).toNat = 2 := by
    norm_num [Int.floor_eq_iff]
    decide
  constructor
  · obtain ⟨xs, hxs, hlen⟩ :=
      claim_C10 compiledVar idCompiled rfl 100000 zeroStream
    exact ⟨xs, hxs, by rw [hlen, hf1]⟩
  · obtain ⟨xs, hxs, hlen⟩ :=
      claim_C10 compiledVar idCompiled rfl (5/2) zeroStream
    exact ⟨xs, hxs, by rw [hlen, hf2]⟩

end OpticsDesign
